import Mathlib

set_option maxHeartbeats 1000000
set_option maxRecDepth 4000

/-! Verification of the exonum testkit core.  The development is a shallow
embedding of the testkit library (lib.rs) together with the numeric helper
types of the exonum crate.  The blockchain collaborator (storage, schema,
crypto) is part of the repository but its sources are not available here;
those parts are modelled from the specification and are marked as such.
Machine integers that the source casts with an `as u16` cast are modelled
as naturals with an explicit mod 2^16. -/

/-- Modelled from the spec: the crypto collaborator (exonum crate, sources not
under src) generates a fresh keypair per call.  Randomness is modelled by a
counter supplying pairwise distinct keys; the function returns
((public key, secret key), next counter). -/
def genKeypair (c : Nat) : (Nat × Nat) × Nat := ((c, c + 1), c + 2)

/-- An emulated node in the test network (struct TestNode in lib.rs):
two keypairs plus an optional validator index. -/
structure TestNode where
  consensus_secret_key : Nat
  consensus_public_key : Nat
  service_secret_key : Nat
  service_public_key : Nat
  validator_id : Option Nat
deriving DecidableEq

/-- TestNode::new_auditor, with the key generation counter threaded
explicitly (the source draws the keys from the crypto collaborator). -/
def TestNode.new_auditor (c : Nat) : TestNode × Nat :=
  let rc := genKeypair c
  let rs := genKeypair rc.2
  ({ consensus_public_key := rc.1.1, consensus_secret_key := rc.1.2,
     service_public_key := rs.1.1, service_secret_key := rs.1.2,
     validator_id := none }, rs.2)

/-- TestNode::new_validator, with the key generation counter threaded
explicitly. -/
def TestNode.new_validator (vid : Nat) (c : Nat) : TestNode × Nat :=
  let rc := genKeypair c
  let rs := genKeypair rc.2
  ({ consensus_public_key := rc.1.1, consensus_secret_key := rc.1.2,
     service_public_key := rs.1.1, service_secret_key := rs.1.2,
     validator_id := some vid }, rs.2)

/-- TestNode::change_role: mutates the validator index field only. -/
def TestNode.change_role (n : TestNode) (role : Option Nat) : TestNode :=
  { n with validator_id := role }

/-- Placeholder node used only for the out-of-bounds head access that would
panic in the source (TestNetwork::new with zero validators). -/
def defaultTestNode : TestNode :=
  { consensus_secret_key := 0, consensus_public_key := 0,
    service_secret_key := 0, service_public_key := 0, validator_id := none }

/-- The emulated test network (struct TestNetwork in lib.rs). -/
structure TestNetwork where
  us : TestNode
  validators : List TestNode
deriving DecidableEq

/-- The validator list built by TestNetwork::new: indices 0.. with fresh
keypairs, key counter threaded left to right. -/
def genValidators : Nat → Nat → Nat → List TestNode
  | 0, _, _ => []
  | count + 1, i, c =>
    let r := TestNode.new_validator i c
    r.1 :: genValidators count (i + 1) r.2

/-- TestNetwork::new: n validators with indices 0..n, us is a clone of
validator 0 (out-of-bounds access for n = 0 modelled by a placeholder). -/
def TestNetwork.new (validator_count : Nat) (c : Nat) : TestNetwork :=
  let validators := genValidators validator_count 0 c
  { us := validators.headD defaultTestNode, validators := validators }

/-- The single pass inside TestNetwork::update over the incoming validator
list: each validator receives index = its position (cast as u16 in the source,
hence mod 2^16), and on a consensus-key match us receives the same index.
Returns (the final us, the reindexed list). -/
def reindexFold (us : TestNode) (idx : Nat) : List TestNode → TestNode × List TestNode
  | [] => (us, [])
  | v :: rest =>
    let vid := idx % 65536
    let v1 := TestNode.change_role v (some vid)
    let us1 := if us.consensus_public_key = v.consensus_public_key
      then TestNode.change_role us (some vid) else us
    let r := reindexFold us1 (idx + 1) rest
    (r.1, v1 :: r.2)

/-- TestNetwork::update: replaces the validator list by the reindexed incoming
list and us by the incoming us with its role updated on consensus-key match. -/
def TestNetwork.update (_net : TestNetwork) (newUs : TestNode)
    (newValidators : List TestNode) : TestNetwork :=
  let r := reindexFold newUs 0 newValidators
  { us := r.1, validators := r.2 }

/-- Index of the last consensus-key match of a key in a node list; this is the
index that the fold inside TestNetwork::update leaves in us. -/
def lastMatchIdx (key : Nat) : List TestNode → Option Nat
  | [] => none
  | v :: rest =>
    match lastMatchIdx key rest with
    | some j => some (j + 1)
    | none => if key = v.consensus_public_key then some 0 else none

/-- Networks reachable per claim C1: TestNetwork::new(n) with 1 <= n (and n a
u16 value), followed by any sequence of update calls with arbitrary nodes. -/
inductive ReachableNet : TestNetwork → Prop where
  | base (n c : Nat) (h1 : 1 ≤ n) (h2 : n ≤ 65535) :
      ReachableNet (TestNetwork.new n c)
  | step (net : TestNetwork) (us : TestNode) (vs : List TestNode) :
      ReachableNet net → ReachableNet (TestNetwork.update net us vs)

/-- Claimed invariant part (a): every validator stores exactly its position. -/
abbrev netValidatorIdsOk (net : TestNetwork) : Prop :=
  ∀ i : Fin net.validators.length, (net.validators.get i).validator_id = some i.val

/-- Claimed invariant part (b), as written in the spec: us.validator_id is
Some i for a consensus-key match at i, else None. -/
abbrev netUsOkClaim (net : TestNetwork) : Prop :=
  (∃ i : Fin net.validators.length,
    (net.validators.get i).consensus_public_key = net.us.consensus_public_key ∧
    net.us.validator_id = some i.val) ∨
  (net.us.validator_id = none ∧
    ∀ i : Fin net.validators.length,
      (net.validators.get i).consensus_public_key ≠ net.us.consensus_public_key)

/-- Amended invariant part (a): positions are stored through the u16 cast. -/
abbrev netValidatorIdsOkMod (net : TestNetwork) : Prop :=
  ∀ i : Fin net.validators.length,
    (net.validators.get i).validator_id = some (i.val % 65536)

/-- Amended invariant part (b): when a consensus-key match exists, us stores a
matching index; with no match us keeps whatever index the caller passed in. -/
abbrev netUsOkAmended (net : TestNetwork) : Prop :=
  (∃ i : Fin net.validators.length,
    (net.validators.get i).consensus_public_key = net.us.consensus_public_key) →
  (∃ i : Fin net.validators.length,
    (net.validators.get i).consensus_public_key = net.us.consensus_public_key ∧
    net.us.validator_id = some (i.val % 65536))

deriving instance DecidableEq for Except

/-- A transaction, identified by its hash (the testkit treats transactions as
opaque apart from the hash and their execution inside the patch builder). -/
structure Tx where
  txHash : Nat
deriving DecidableEq

/-- Insertion into the hash-sorted mempool map (BTreeMap insert: replaces the
entry with an equal key). -/
def insertTx : List Tx → Tx → List Tx
  | [], tx => [tx]
  | t :: rest, tx =>
    if tx.txHash < t.txHash then tx :: t :: rest
    else if tx.txHash = t.txHash then tx :: rest
    else t :: insertTx rest tx

/-- The transaction map built by the loop in TestKit::probe_all. -/
def buildTxMap (txs : List Tx) : List Tx := txs.foldl insertTx []

/-- Keys strictly increase along the mempool map (the BTreeMap ordering). -/
def mpSorted (mp : List Tx) : Prop :=
  List.Pairwise (fun a b => a.txHash < b.txHash) mp

/-- Modelled from the spec: the on-chain stored configuration blob (exonum
crate, sources not under src), restricted to the fields the testkit reads. -/
structure StoredConfiguration where
  actual_from : Nat
  previous_cfg_hash : Nat
  validator_keys : List (Nat × Nat)
deriving DecidableEq

/-- Modelled from the spec: a patch produced by executing a block body. -/
structure Patch where
  txs : List Nat
deriving DecidableEq

/-- Modelled from the spec: the blockchain collaborator (exonum crate, sources
not under src).  It owns the committed blocks (genesis first, so current
height = number of blocks = last height + 1), the set of committed transaction
hashes, the last block hash, and the committed stored configurations. -/
structure Blockchain where
  blocks : List (List Nat)
  committedTxs : List Nat
  lastHash : Nat
  storedConfigs : List StoredConfiguration
deriving DecidableEq

/-- Modelled from the spec: Blockchain::create_patch is deterministic in its
inputs and yields (block hash, patch over the given transaction hashes). -/
def Blockchain.create_patch (_bc : Blockchain) (_proposer : Nat) (height : Nat)
    (txHashes : List Nat) (_pool : List Tx) : Nat × Patch :=
  (height + 1, { txs := txHashes })

/-- Modelled from the spec: Blockchain::commit appends the block, marks its
transactions committed and advances the last hash. -/
def Blockchain.commit (bc : Blockchain) (patch : Patch) (blockHash : Nat) : Blockchain :=
  { bc with blocks := bc.blocks ++ [patch.txs],
            committedTxs := bc.committedTxs ++ patch.txs,
            lastHash := blockHash }

/-- Modelled from the spec: Schema::commit_configuration on a fork merged into
the database records the stored configuration in committed state. -/
def Blockchain.commit_configuration (bc : Blockchain) (stored : StoredConfiguration) : Blockchain :=
  { bc with storedConfigs := bc.storedConfigs ++ [stored] }

/-- A configuration of the test network (struct TestNetworkConfiguration). -/
structure TestNetworkConfiguration where
  us : TestNode
  validators : List TestNode
  stored_configuration : StoredConfiguration
deriving DecidableEq

/-- TestNetworkConfiguration::actual_from. -/
def TestNetworkConfiguration.actual_from (p : TestNetworkConfiguration) : Nat :=
  p.stored_configuration.actual_from

/-- The proposal slot states (enum ConfigurationProposalState). -/
inductive ConfigurationProposalState where
  | Uncommitted (p : TestNetworkConfiguration)
  | Committed (p : TestNetworkConfiguration)
deriving DecidableEq

/-- The testkit state: blockchain handle, network, mempool (hash-sorted map),
the api channel contents not yet pumped, and the proposal slot. -/
structure TestKit where
  blockchain : Blockchain
  network : TestNetwork
  mempool : List Tx
  channel : List Tx
  cfg_proposal : Option ConfigurationProposalState
deriving DecidableEq

/-- TestKit::current_height: number of committed blocks (= last height + 1). -/
def TestKit.current_height (k : TestKit) : Nat := k.blockchain.blocks.length

/-- TestKit::last_hash. -/
def TestKit.last_hash (k : TestKit) : Nat := k.blockchain.lastHash

/-- TestKit::leader: the first validator of the network (the source indexes
and would panic on an empty list, modelled by none). -/
def TestKit.leader (k : TestKit) : Option TestNode := k.network.validators.head?

/-- One event of the pump: drop the transaction when its hash is already in
committed state, otherwise insert it into the mempool. -/
def pumpStep (committed : List Nat) (mp : List Tx) (tx : Tx) : List Tx :=
  if tx.txHash ∈ committed then mp else insertTx mp tx

/-- TestKit::poll_events: greedily folds every available event of the api
channel into the mempool (deduplicating against committed state) and never
waits for new events. -/
def TestKit.poll_events (k : TestKit) : TestKit :=
  { k with
    mempool := k.channel.foldl (pumpStep k.blockchain.committedTxs) k.mempool,
    channel := [] }

/-- TestKit::update_configuration: the configuration proposal state machine,
ticked at the start of every block production. -/
def TestKit.update_configuration (k : TestKit) : TestKit :=
  let height := k.current_height
  match k.cfg_proposal with
  | none => k
  | some (ConfigurationProposalState.Uncommitted p) =>
    { k with blockchain := k.blockchain.commit_configuration p.stored_configuration,
             cfg_proposal := some (ConfigurationProposalState.Committed p) }
  | some (ConfigurationProposalState.Committed p) =>
    if p.actual_from = height then
      { k with network := k.network.update p.us p.validators,
               cfg_proposal := none }
    else k

/-- TestKit::do_create_block: tick the configuration state machine, build the
patch led by validator 0, prune the included hashes from the mempool, commit,
then drain the event pump once.  The panics of the source (no leader, leader or
a precommitting validator without a validator id) are modelled by none. -/
def TestKit.do_create_block (k : TestKit) (txHashes : List Nat) : Option TestKit :=
  let height := k.current_height
  let k1 := k.update_configuration
  match TestKit.leader k1 with
  | none => none
  | some leader =>
    match leader.validator_id with
    | none => none
    | some vid =>
      if ∀ v ∈ k1.network.validators, (v.validator_id).isSome = true then
        let bp := k1.blockchain.create_patch vid height txHashes k1.mempool
        let k2 := { k1 with mempool := k1.mempool.filter (fun tx => ¬ tx.txHash ∈ txHashes) }
        let k3 := { k2 with blockchain := k2.blockchain.commit bp.2 bp.1 }
        some k3.poll_events
      else none

/-- TestKit::create_block: poll the pump, then commit a block with every hash
currently in the mempool (hash-sorted order). -/
def TestKit.create_block (k : TestKit) : Option TestKit :=
  let k0 := k.poll_events
  k0.do_create_block (k0.mempool.map Tx.txHash)

/-- TestKit::create_block_with_tx_hashes: poll the pump, assert every hash is
in the mempool (panic modelled by none), then commit that hash list. -/
def TestKit.create_block_with_tx_hashes (k : TestKit) (txHashes : List Nat) : Option TestKit :=
  let k0 := k.poll_events
  if ∀ h ∈ txHashes, h ∈ k0.mempool.map Tx.txHash then
    k0.do_create_block txHashes
  else none

/-- TestKit::create_block_with_transactions: assert that no input transaction
is already committed (panic modelled by none), insert each into the mempool,
then commit a block with exactly those hashes. -/
def TestKit.create_block_with_transactions (k : TestKit) (txs : List Tx) : Option TestKit :=
  if ∀ tx ∈ txs, ¬ tx.txHash ∈ k.blockchain.committedTxs then
    TestKit.create_block_with_tx_hashes
      { k with mempool := txs.foldl insertTx k.mempool }
      (txs.map Tx.txHash)
  else none

/-- The while loop of TestKit::create_blocks_until, with explicit fuel.  The
fuel passed by create_blocks_until is exact because create_block advances the
height by exactly one; the fuel-exhausted branch (unreachable) yields none. -/
def createBlocksUntilAux : Nat → TestKit → Nat → Option TestKit
  | 0, k, target => if k.current_height ≤ target then none else some k
  | fuel + 1, k, target =>
    if k.current_height ≤ target then
      match k.create_block with
      | none => none
      | some k1 => createBlocksUntilAux fuel k1 target
    else some k

/-- TestKit::create_blocks_until: create blocks while current_height <= h. -/
def TestKit.create_blocks_until (k : TestKit) (height : Nat) : Option TestKit :=
  createBlocksUntilAux (height + 1 - k.current_height) k height

/-- TestKit::commit_configuration_change: asserts the proposal activates in
the future and the slot is free (panics modelled by none). -/
def TestKit.commit_configuration_change (k : TestKit)
    (proposal : TestNetworkConfiguration) : Option TestKit :=
  if k.current_height < proposal.actual_from ∧ k.cfg_proposal = none then
    some { k with cfg_proposal := some (ConfigurationProposalState.Uncommitted proposal) }
  else none

/-- TestKit::probe_all: dry-run of a transaction list.  Panics (modelled as
errors) when the tested node is not a validator and when the not-yet-committed
part of the input contains duplicates; already committed transactions are
silently filtered out.  Returns the hypothetical post-state snapshot together
with the unchanged testkit (the source borrows the testkit immutably). -/
def TestKit.probe_all (k : TestKit) (transactions : List Tx) :
    Except String (Blockchain × TestKit) :=
  match k.network.us.validator_id with
  | none => Except.error "Tested node is not a validator"
  | some vid =>
    let height := k.current_height
    let filtered := transactions.filter (fun tx => ¬ tx.txHash ∈ k.blockchain.committedTxs)
    let hashes := filtered.map Tx.txHash
    let txMap := buildTxMap filtered
    if hashes.length = txMap.length then
      let bp := k.blockchain.create_patch vid height hashes txMap
      Except.ok ({ k.blockchain with committedTxs := k.blockchain.committedTxs ++ bp.2.txs }, k)
    else Except.error "Duplicate transactions in probe"

/-- TestKit::probe: probe_all of a single transaction. -/
def TestKit.probe (k : TestKit) (tx : Tx) : Except String (Blockchain × TestKit) :=
  k.probe_all [tx]

/-- TestKitBuilder (only the fields the claims exercise). -/
structure TestKitBuilder where
  us : TestNode
  validators : List TestNode
deriving DecidableEq

/-- TestKitBuilder::validator: us is a fresh validator 0, validator list is
just us. -/
def TestKitBuilder.validator (c : Nat) : TestKitBuilder × Nat :=
  let r := TestNode.new_validator 0 c
  ({ us := r.1, validators := [r.1] }, r.2)

/-- TestKitBuilder::auditor: us is a fresh auditor, validator list holds one
fresh validator 0. -/
def TestKitBuilder.auditor (c : Nat) : TestKitBuilder × Nat :=
  let ra := TestNode.new_auditor c
  let rv := TestNode.new_validator 0 ra.2
  ({ us := ra.1, validators := [rv.1] }, rv.2)

/-- TestKitBuilder::create / TestKit::assemble: in-memory database, genesis
block committed (so current_height = 1), empty mempool and channel, empty
proposal slot. -/
def TestKitBuilder.create (b : TestKitBuilder) : TestKit :=
  { blockchain := { blocks := [[]], committedTxs := [], lastHash := 0, storedConfigs := [] },
    network := { us := b.us, validators := b.validators },
    mempool := [], channel := [], cfg_proposal := none }

/-- An HTTP response of the embedded server shim (status code and body). -/
structure HttpResponse where
  status : Option Nat
  body : String

/-- A mount point: maps a request URL to a response, an Err response carrying
a response as in the iron shim. -/
structure Mount where
  handle : String → Except HttpResponse HttpResponse

/-- The API encapsulation (struct TestKitApi): two mount points. -/
structure TestKitApi where
  public_mount : Mount
  private_mount : Mount

/-- The endpoint kinds (enum ApiKind). -/
inductive ApiKind where
  | System
  | Explorer
  | Service (name : String)

/-- ApiKind::into_prefix: the URL piece of each endpoint kind. -/
def ApiKind.apiPath : ApiKind → String
  | ApiKind.System => "api/system"
  | ApiKind.Explorer => "api/explorer"
  | ApiKind.Service name => "api/services/" ++ name

/-- The status code group of a response status (2 for success, 4 for client
error). -/
def statusGroup (s : Nat) : Nat := s / 100

/-- TestKitApi::get_internal: issue a GET against the given mount, require
the expected status group, return the body (test failures modelled by none). -/
def TestKitApi.get_internal (mount : Mount) (url : String) (expectError : Bool) : Option String :=
  let wanted := if expectError then 4 else 2
  let resp := mount.handle ("http://localhost:3000/" ++ url)
  let resp := if expectError then
      (match resp with
       | Except.ok r => some r
       | Except.error r => some r)
    else
      (match resp with
       | Except.ok r => some r
       | Except.error _ => none)
  match resp with
  | none => none
  | some r =>
    match r.status with
    | none => none
    | some s => if statusGroup s = wanted then some r.body else none

/-- TestKitApi::get: GET against the public mount. -/
def TestKitApi.get (api : TestKitApi) (kind : ApiKind) (endpoint : String) : Option String :=
  TestKitApi.get_internal api.public_mount (ApiKind.apiPath kind ++ "/" ++ endpoint) false

/-- TestKitApi::get_private: as in the source, this dispatches against the
public mount. -/
def TestKitApi.get_private (api : TestKitApi) (kind : ApiKind) (endpoint : String) : Option String :=
  TestKitApi.get_internal api.public_mount (ApiKind.apiPath kind ++ "/" ++ endpoint) false

/-- A testkit built with the validator builder. -/
def kitV : TestKit := ((TestKitBuilder.validator 0).1).create

/-- A testkit built with the auditor builder. -/
def kitA : TestKit := ((TestKitBuilder.auditor 0).1).create

/-- kitV after one block. -/
def kitV1 : TestKit := (TestKit.create_block kitV).getD kitV

/-- kitV after two blocks. -/
def kitV2 : TestKit := (TestKit.create_block kitV1).getD kitV

/-- A fresh node used in concrete configuration proposals. -/
def nodeA : TestNode := (TestNode.new_validator 0 100).1

/-- A concrete validator-set change proposal activating at height 3. -/
def pC : TestNetworkConfiguration :=
  { us := nodeA, validators := [nodeA],
    stored_configuration := { actual_from := 3, previous_cfg_hash := 0, validator_keys := [] } }

/-- kitV with the proposal pC committed (current height 1, actual_from 3). -/
def kitP : TestKit := (TestKit.commit_configuration_change kitV pC).getD kitV

/-- kitP after one block. -/
def kitP2 : TestKit := (TestKit.create_block kitP).getD kitV

/-- kitP after two blocks. -/
def kitP3 : TestKit := (TestKit.create_block kitP2).getD kitV

/-- kitP after three blocks. -/
def kitP4 : TestKit := (TestKit.create_block kitP3).getD kitV

/-- kitP after create_blocks_until(3). -/
def kitPU : TestKit := (TestKit.create_blocks_until kitP 3).getD kitV

/-- A testkit in which the transaction with hash 5 is committed. -/
def kitC : TestKit :=
  (TestKit.create_block_with_transactions kitV [Tx.mk 5]).getD kitV

/-- kitV with two transactions pending on the api channel. -/
def kitT : TestKit := { kitV with channel := [Tx.mk 1, Tx.mk 2] }

/-- kitT after create_block_with_tx_hashes([1]). -/
def kitT1 : TestKit := (TestKit.create_block_with_tx_hashes kitT [1]).getD kitV

/-- The network obtained from kitV by an update call whose incoming us is a
validator whose consensus key matches nobody in the incoming list. -/
def badNet : TestNetwork :=
  TestNetwork.update (TestNetwork.new 1 0)
    (TestNode.new_validator 0 6).1 [(TestNode.new_validator 0 12).1]

theorem change_role_cpk (n : TestNode) (r : Option Nat) :
    (TestNode.change_role n r).consensus_public_key = n.consensus_public_key := rfl

theorem change_role_id (n : TestNode) (r : Option Nat) :
    (TestNode.change_role n r).validator_id = r := rfl

theorem change_role_change_role (n : TestNode) (a b : Option Nat) :
    TestNode.change_role (TestNode.change_role n a) b = TestNode.change_role n b := rfl

theorem reindexFold_snd_length (l : List TestNode) :
    ∀ us idx, ((reindexFold us idx l).2).length = l.length := by
  induction l with
  | nil => intro us idx; rfl
  | cons v rest ih => intro us idx; simp [reindexFold, ih]

theorem reindexFold_snd_get (l : List TestNode) :
    ∀ us idx j, ((reindexFold us idx l).2)[j]? =
      (l[j]?).map (fun v => TestNode.change_role v (some ((idx + j) % 65536))) := by
  induction l with
  | nil => intro us idx j; simp [reindexFold]
  | cons v rest ih =>
    intro us idx j
    cases j with
    | zero => simp [reindexFold]
    | succ j =>
      have harith : idx + 1 + j = idx + (j + 1) := by omega
      simp [reindexFold, ih, harith]

theorem reindexFold_fst_eq (l : List TestNode) :
    ∀ us idx, (reindexFold us idx l).1 =
      (match lastMatchIdx us.consensus_public_key l with
       | none => us
       | some j => TestNode.change_role us (some ((idx + j) % 65536))) := by
  induction l with
  | nil => intro us idx; rfl
  | cons v rest ih =>
    intro us idx
    have hstep : (reindexFold us idx (v :: rest)).1 =
        (reindexFold (if us.consensus_public_key = v.consensus_public_key
          then TestNode.change_role us (some (idx % 65536)) else us) (idx + 1) rest).1 := rfl
    rw [hstep, ih]
    have hcpk : (if us.consensus_public_key = v.consensus_public_key
        then TestNode.change_role us (some (idx % 65536)) else us).consensus_public_key
        = us.consensus_public_key := by split <;> rfl
    rw [hcpk]
    have hcons : lastMatchIdx us.consensus_public_key (v :: rest) =
        (match lastMatchIdx us.consensus_public_key rest with
         | some j => some (j + 1)
         | none =>
           if us.consensus_public_key = v.consensus_public_key then some 0 else none) := rfl
    rw [hcons]
    rcases hr : lastMatchIdx us.consensus_public_key rest with _ | j
    · by_cases hm : us.consensus_public_key = v.consensus_public_key
      · rw [if_pos hm]
        simp [if_pos hm]
      · rw [if_neg hm]
        simp [if_neg hm]
    · have harith : idx + 1 + j = idx + (j + 1) := by omega
      by_cases hm : us.consensus_public_key = v.consensus_public_key
      · simp [if_pos hm, change_role_change_role, harith]
      · simp [if_neg hm, harith]

theorem reindexFold_fst_cpk (l : List TestNode) (us : TestNode) (idx : Nat) :
    (reindexFold us idx l).1.consensus_public_key = us.consensus_public_key := by
  rw [reindexFold_fst_eq]
  rcases lastMatchIdx us.consensus_public_key l with _ | j <;> rfl

theorem lastMatchIdx_lt (key : Nat) (l : List TestNode) (j : Nat)
    (h : lastMatchIdx key l = some j) : j < l.length := by
  induction l generalizing j with
  | nil => simp [lastMatchIdx] at h
  | cons v rest ih =>
    simp only [lastMatchIdx] at h
    rcases hr : lastMatchIdx key rest with _ | j0 <;> rw [hr] at h
    · by_cases hm : key = v.consensus_public_key
      · rw [if_pos hm] at h
        simp only [Option.some.injEq] at h
        simp only [List.length_cons]
        omega
      · rw [if_neg hm] at h
        exact absurd h (by simp)
    · simp only [Option.some.injEq] at h
      have hlt := ih j0 hr
      simp only [List.length_cons]
      omega

theorem lastMatchIdx_get (key : Nat) (l : List TestNode) (j : Nat)
    (h : lastMatchIdx key l = some j) :
    ∃ v, l[j]? = some v ∧ key = v.consensus_public_key := by
  induction l generalizing j with
  | nil => simp [lastMatchIdx] at h
  | cons v rest ih =>
    simp only [lastMatchIdx] at h
    rcases hr : lastMatchIdx key rest with _ | j0 <;> rw [hr] at h
    · by_cases hm : key = v.consensus_public_key
      · rw [if_pos hm] at h
        simp only [Option.some.injEq] at h
        exact ⟨v, by simp [← h], hm⟩
      · rw [if_neg hm] at h
        exact absurd h (by simp)
    · simp only [Option.some.injEq] at h
      obtain ⟨w, hw1, hw2⟩ := ih j0 hr
      exact ⟨w, by simp [← h, hw1], hw2⟩

theorem lastMatchIdx_ne_none (key : Nat) (l : List TestNode) (v : TestNode)
    (hv : v ∈ l) (hk : key = v.consensus_public_key) : lastMatchIdx key l ≠ none := by
  induction l with
  | nil => simp at hv
  | cons u rest ih =>
    simp only [lastMatchIdx]
    rcases hr : lastMatchIdx key rest with _ | j
    · rcases List.mem_cons.mp hv with hvu | hvr
      · subst hvu
        simp [hk]
      · exact absurd hr (ih hvr)
    · simp

theorem genValidators_length : ∀ count i0 c, (genValidators count i0 c).length = count := by
  intro count
  induction count with
  | zero => intro i0 c; rfl
  | succ m ih => intro i0 c; simp [genValidators, ih]

theorem genValidators_id : ∀ count i0 c j, j < count →
    ((genValidators count i0 c)[j]?).map TestNode.validator_id = some (some (i0 + j)) := by
  intro count
  induction count with
  | zero => intro i0 c j hj; omega
  | succ m ih =>
    intro i0 c j hj
    cases j with
    | zero => simp [genValidators, TestNode.new_validator]
    | succ j =>
      have hj2 : j < m := by omega
      have := ih (i0 + 1) ((genKeypair (genKeypair c).2).2) j hj2
      simp only [genValidators, List.getElem?_cons_succ]
      rw [show i0 + (j + 1) = i0 + 1 + j by omega]
      exact this

/-- C1, part that fails: on the network reached from TestNetwork::new(1) by an
update whose incoming us is a fresh validator matching nobody in the incoming
list, us keeps the incoming validator id instead of becoming None, so the
claimed invariant (validator positions plus the us-iff-else-None rule) does
not hold for every reachable network. -/
theorem c1_counterexample :
    ¬ (∀ net, ReachableNet net → netValidatorIdsOk net ∧ netUsOkClaim net) := by
  intro hall
  have hb := hall badNet
    (ReachableNet.step (TestNetwork.new 1 0) (TestNode.new_validator 0 6).1
      [(TestNode.new_validator 0 12).1] (ReachableNet.base 1 0 (by decide) (by decide)))
  exact absurd hb.2 (by decide)

/-- C1 (amended): for every network reachable from TestNetwork::new(n) with
1 <= n <= 65535 by any sequence of update calls, (a) every validator stores
its position (through the u16 cast), and (b) whenever some validator's
consensus key equals the consensus key of us, us stores a matching position;
when no key matches, us keeps the validator id passed in by the caller. -/
theorem c1_invariant : ∀ net, ReachableNet net → netValidatorIdsOkMod net ∧ netUsOkAmended net := by
  intro net h
  induction h with
  | base n c h1 h2 =>
    obtain ⟨m, rfl⟩ : ∃ m, n = m + 1 := ⟨n - 1, by omega⟩
    have hv : (TestNetwork.new (m + 1) c).validators = genValidators (m + 1) 0 c := rfl
    have hlen : (TestNetwork.new (m + 1) c).validators.length = m + 1 := by
      rw [hv, genValidators_length]
    constructor
    · intro i
      have hlt : i.val < m + 1 := lt_of_lt_of_le i.isLt (le_of_eq hlen)
      have hid := genValidators_id (m + 1) 0 c i.val hlt
      have hsome : (genValidators (m + 1) 0 c)[i.val]? =
          some ((TestNetwork.new (m + 1) c).validators.get i) := by
        show (TestNetwork.new (m + 1) c).validators[i.val]? = _
        rw [List.getElem?_eq_getElem i.isLt, List.get_eq_getElem]
      rw [hsome] at hid
      simp only [Option.map_some', Option.some.injEq, Nat.zero_add] at hid
      rw [hid]
      have hmod : i.val % 65536 = i.val := Nat.mod_eq_of_lt (by omega)
      rw [hmod]
    · intro _hex
      have hpos : 0 < (TestNetwork.new (m + 1) c).validators.length := by rw [hlen]; omega
      refine ⟨⟨0, hpos⟩, ?_, ?_⟩
      · rfl
      · rfl
  | step net us vs _hnet _ih =>
    have hlen2 : (TestNetwork.update net us vs).validators.length = vs.length :=
      reindexFold_snd_length vs us 0
    constructor
    · intro i
      have hvlt : i.val < vs.length := lt_of_lt_of_le i.isLt (le_of_eq hlen2)
      have hgi := reindexFold_snd_get vs us 0 i.val
      have hflt : i.val < ((reindexFold us 0 vs).2).length := i.isLt
      rw [List.getElem?_eq_getElem hflt, List.getElem?_eq_getElem hvlt] at hgi
      simp only [Option.map_some', Option.some.injEq] at hgi
      show (((reindexFold us 0 vs).2).get i).validator_id = some (i.val % 65536)
      rw [List.get_eq_getElem, hgi, change_role_id]
      rw [Nat.zero_add]
    · intro hex
      obtain ⟨i, hi⟩ := hex
      have hvlt : i.val < vs.length := lt_of_lt_of_le i.isLt (le_of_eq hlen2)
      have hgi := reindexFold_snd_get vs us 0 i.val
      have hflt : i.val < ((reindexFold us 0 vs).2).length := i.isLt
      rw [List.getElem?_eq_getElem hflt, List.getElem?_eq_getElem hvlt] at hgi
      simp only [Option.map_some', Option.some.injEq] at hgi
      have hi2 : (vs[i.val]).consensus_public_key = us.consensus_public_key := by
        have h4 : (((reindexFold us 0 vs).2).get ⟨i.val, hflt⟩).consensus_public_key =
            (reindexFold us 0 vs).1.consensus_public_key := hi
        rw [List.get_eq_getElem] at h4
        rw [hgi, change_role_cpk, reindexFold_fst_cpk] at h4
        exact h4
      have hne := lastMatchIdx_ne_none us.consensus_public_key vs (vs[i.val])
        (List.getElem_mem hvlt) hi2.symm
      rcases hj : lastMatchIdx us.consensus_public_key vs with _ | j
      · exact absurd hj hne
      obtain ⟨w, hw1, hw2⟩ := lastMatchIdx_get _ _ _ hj
      have hjlt := lastMatchIdx_lt _ _ _ hj
      have hjlt2 : j < ((reindexFold us 0 vs).2).length := by
        rw [reindexFold_snd_length]; exact hjlt
      refine ⟨⟨j, hjlt2⟩, ?_, ?_⟩
      · have hgj := reindexFold_snd_get vs us 0 j
        rw [List.getElem?_eq_getElem hjlt2, hw1] at hgj
        simp only [Option.map_some', Option.some.injEq] at hgj
        show (((reindexFold us 0 vs).2).get ⟨j, hjlt2⟩).consensus_public_key =
          (reindexFold us 0 vs).1.consensus_public_key
        rw [List.get_eq_getElem, hgj, change_role_cpk, reindexFold_fst_cpk]
        exact hw2.symm
      · show (reindexFold us 0 vs).1.validator_id = some (j % 65536)
        rw [reindexFold_fst_eq, hj, change_role_id, Nat.zero_add]

/-- C1 witness: the amended invariant holds for the concrete two-validator
network produced by TestNetwork::new(2). -/
theorem c1_witness :
    netValidatorIdsOkMod (TestNetwork.new 2 0) ∧ netUsOkAmended (TestNetwork.new 2 0) :=
  c1_invariant (TestNetwork.new 2 0) (ReachableNet.base 2 0 (by decide) (by decide))

/-- C10: get_private dispatches the request against the public mount and
behaves identically to get for every kind and endpoint. -/
theorem c10_get_private_eq_get :
    ∀ (api : TestKitApi) (kind : ApiKind) (endpoint : String),
      TestKitApi.get_private api kind endpoint = TestKitApi.get api kind endpoint := by
  intro api kind endpoint
  rfl

theorem probe_all_ok_eq (k : TestKit) (txs : List Tx) (s : Blockchain) (k2 : TestKit)
    (h : TestKit.probe_all k txs = Except.ok (s, k2)) : k2 = k := by
  simp only [TestKit.probe_all] at h
  cases hv : k.network.us.validator_id with
  | none => rw [hv] at h; exact absurd h (by simp)
  | some vid =>
    simp only [hv] at h
    split at h
    · simp only [Except.ok.injEq, Prod.mk.injEq] at h
      exact h.2.symm
    · exact absurd h (by simp)

/-- C7: probe and probe_all leave the current height, the last hash and the
mempool contents unchanged (indeed the whole testkit state): they only return
a snapshot of the hypothetical post-state. -/
theorem c7_probe_frame :
    ∀ (k : TestKit) (txs : List Tx) (s : Blockchain) (k2 : TestKit),
      (TestKit.probe_all k txs = Except.ok (s, k2) →
        k2.current_height = k.current_height ∧ k2.last_hash = k.last_hash ∧
        k2.mempool = k.mempool ∧ k2 = k) ∧
      (∀ tx, TestKit.probe k tx = Except.ok (s, k2) →
        k2.current_height = k.current_height ∧ k2.last_hash = k.last_hash ∧
        k2.mempool = k.mempool ∧ k2 = k) := by
  intro k txs s k2
  constructor
  · intro h
    have he := probe_all_ok_eq k txs s k2 h
    subst he
    exact ⟨rfl, rfl, rfl, rfl⟩
  · intro tx h
    have he := probe_all_ok_eq k [tx] s k2 h
    subst he
    exact ⟨rfl, rfl, rfl, rfl⟩

/-- C7 witness: probing an empty transaction list on a concrete validator
testkit leaves the state unchanged. -/
theorem c7_witness :
    kitV.current_height = kitV.current_height ∧ kitV.last_hash = kitV.last_hash ∧
    kitV.mempool = kitV.mempool ∧ kitV = kitV :=
  (c7_probe_frame kitV [] kitV.blockchain kitV).1 (by decide)

/-- C9: probe and probe_all fail with the panic message of the source
whenever the node under test has no validator id (such as on an auditor
testkit), a panic condition the spec does not list. -/
theorem c9_probe_auditor :
    ∀ (k : TestKit), k.network.us.validator_id = none →
      (∀ txs, TestKit.probe_all k txs = Except.error "Tested node is not a validator") ∧
      (∀ tx, TestKit.probe k tx = Except.error "Tested node is not a validator") := by
  intro k h
  constructor
  · intro txs
    simp only [TestKit.probe_all, h]
  · intro tx
    simp only [TestKit.probe, TestKit.probe_all, h]

/-- C9 witness: probe_all on the auditor-built testkit fails with the
non-validator panic. -/
theorem c9_witness :
    TestKit.probe_all kitA [] = Except.error "Tested node is not a validator" :=
  (c9_probe_auditor kitA (by decide)).1 []

theorem poll_network (k : TestKit) : (k.poll_events).network = k.network := rfl

theorem poll_cfg (k : TestKit) : (k.poll_events).cfg_proposal = k.cfg_proposal := rfl

theorem poll_blockchain (k : TestKit) : (k.poll_events).blockchain = k.blockchain := rfl

theorem poll_height (k : TestKit) : (k.poll_events).current_height = k.current_height := rfl

theorem uc_blocks (k : TestKit) :
    (k.update_configuration).blockchain.blocks = k.blockchain.blocks := by
  cases hc : k.cfg_proposal with
  | none => simp [TestKit.update_configuration, hc]
  | some s =>
    cases s with
    | Uncommitted p => simp [TestKit.update_configuration, hc, Blockchain.commit_configuration]
    | Committed p =>
      simp only [TestKit.update_configuration, hc]
      split <;> rfl

theorem uc_committedTxs (k : TestKit) :
    (k.update_configuration).blockchain.committedTxs = k.blockchain.committedTxs := by
  cases hc : k.cfg_proposal with
  | none => simp [TestKit.update_configuration, hc]
  | some s =>
    cases s with
    | Uncommitted p => simp [TestKit.update_configuration, hc, Blockchain.commit_configuration]
    | Committed p =>
      simp only [TestKit.update_configuration, hc]
      split <;> rfl

theorem uc_mempool (k : TestKit) :
    (k.update_configuration).mempool = k.mempool := by
  cases hc : k.cfg_proposal with
  | none => simp [TestKit.update_configuration, hc]
  | some s =>
    cases s with
    | Uncommitted p => simp [TestKit.update_configuration, hc]
    | Committed p =>
      simp only [TestKit.update_configuration, hc]
      split <;> rfl

theorem uc_channel (k : TestKit) :
    (k.update_configuration).channel = k.channel := by
  cases hc : k.cfg_proposal with
  | none => simp [TestKit.update_configuration, hc]
  | some s =>
    cases s with
    | Uncommitted p => simp [TestKit.update_configuration, hc]
    | Committed p =>
      simp only [TestKit.update_configuration, hc]
      split <;> rfl

theorem uc_uncommitted (k : TestKit) (p : TestNetworkConfiguration)
    (hc : k.cfg_proposal = some (ConfigurationProposalState.Uncommitted p)) :
    k.update_configuration =
      { k with blockchain := k.blockchain.commit_configuration p.stored_configuration,
               cfg_proposal := some (ConfigurationProposalState.Committed p) } := by
  simp only [TestKit.update_configuration, hc]

theorem uc_committed_hold (k : TestKit) (p : TestNetworkConfiguration)
    (hc : k.cfg_proposal = some (ConfigurationProposalState.Committed p))
    (hne : p.actual_from ≠ k.current_height) :
    k.update_configuration = k := by
  simp only [TestKit.update_configuration, hc]
  rw [if_neg hne]

theorem uc_committed_fire (k : TestKit) (p : TestNetworkConfiguration)
    (hc : k.cfg_proposal = some (ConfigurationProposalState.Committed p))
    (heq : p.actual_from = k.current_height) :
    k.update_configuration =
      { k with network := k.network.update p.us p.validators, cfg_proposal := none } := by
  simp only [TestKit.update_configuration, hc]
  rw [if_pos heq]

theorem dcb_spec (k : TestKit) (hs : List Nat) (k2 : TestKit)
    (h : TestKit.do_create_block k hs = some k2) :
    k2.network = (k.update_configuration).network ∧
    k2.cfg_proposal = (k.update_configuration).cfg_proposal ∧
    k2.current_height = k.current_height + 1 ∧
    k2.blockchain.storedConfigs = (k.update_configuration).blockchain.storedConfigs ∧
    k2.blockchain.committedTxs = k.blockchain.committedTxs ++ hs ∧
    k2.mempool = k.channel.foldl (pumpStep (k.blockchain.committedTxs ++ hs))
      (k.mempool.filter (fun tx => ¬ tx.txHash ∈ hs)) ∧
    k2.channel = [] := by
  simp only [TestKit.do_create_block] at h
  cases hL : TestKit.leader k.update_configuration with
  | none => rw [hL] at h; exact absurd h (by simp)
  | some leader =>
    simp only [hL] at h
    cases hvid : leader.validator_id with
    | none => rw [hvid] at h; exact absurd h (by simp)
    | some vid =>
      simp only [hvid] at h
      split at h
      · injection h with h
        subst h
        refine ⟨rfl, rfl, ?_, rfl, ?_, ?_, rfl⟩
        · show ((k.update_configuration).blockchain.blocks ++ [hs]).length
            = k.current_height + 1
          rw [uc_blocks]
          simp [TestKit.current_height]
        · show (k.update_configuration).blockchain.committedTxs ++ hs
            = k.blockchain.committedTxs ++ hs
          rw [uc_committedTxs]
        · show (k.update_configuration).channel.foldl
            (pumpStep ((k.update_configuration).blockchain.committedTxs ++ hs))
            ((k.update_configuration).mempool.filter (fun tx => ¬ tx.txHash ∈ hs)) = _
          rw [uc_channel, uc_committedTxs, uc_mempool]
      · exact absurd h (by simp)

theorem create_block_height (k k2 : TestKit) (h : TestKit.create_block k = some k2) :
    k2.current_height = k.current_height + 1 := by
  have hd := dcb_spec (k.poll_events) ((k.poll_events).mempool.map Tx.txHash) k2 h
  have hh := hd.2.2.1
  rw [poll_height] at hh
  exact hh

/-- C4: every create_block family operation that returns normally advances
current_height by exactly one. -/
theorem c4_height_increment :
    ∀ (k k2 : TestKit),
      (TestKit.create_block k = some k2 → k2.current_height = k.current_height + 1) ∧
      (∀ hs, TestKit.create_block_with_tx_hashes k hs = some k2 →
        k2.current_height = k.current_height + 1) ∧
      (∀ txs, TestKit.create_block_with_transactions k txs = some k2 →
        k2.current_height = k.current_height + 1) := by
  intro k k2
  refine ⟨fun h => create_block_height k k2 h, ?_, ?_⟩
  · intro hs h
    simp only [TestKit.create_block_with_tx_hashes] at h
    split at h
    · have hd := dcb_spec (k.poll_events) hs k2 h
      have hh := hd.2.2.1
      rw [poll_height] at hh
      exact hh
    · exact absurd h (by simp)
  · intro txs h
    simp only [TestKit.create_block_with_transactions] at h
    split at h
    · simp only [TestKit.create_block_with_tx_hashes] at h
      split at h
      · have hd := dcb_spec _ _ k2 h
        have hh := hd.2.2.1
        rw [poll_height] at hh
        exact hh
      · exact absurd h (by simp)
    · exact absurd h (by simp)

/-- C4 witness: one concrete block advances the height from 1 to 2. -/
theorem c4_witness : kitV1.current_height = kitV.current_height + 1 :=
  (c4_height_increment kitV kitV1).1 (by decide)

theorem cbua_height : ∀ fuel (k k2 : TestKit) (target : Nat),
    createBlocksUntilAux fuel k target = some k2 →
    target + 1 ≤ fuel + k.current_height →
    k2.current_height = max k.current_height (target + 1) := by
  intro fuel
  induction fuel with
  | zero =>
    intro k k2 target h hle
    simp only [createBlocksUntilAux] at h
    split at h
    · exact absurd h (by simp)
    · rename_i hgt
      injection h with h
      subst h
      omega
  | succ f ih =>
    intro k k2 target h hle
    simp only [createBlocksUntilAux] at h
    split at h
    · rename_i hcond
      cases hcb : k.create_block with
      | none => rw [hcb] at h; exact absurd h (by simp)
      | some k1 =>
        rw [hcb] at h
        have hh1 := create_block_height k k1 hcb
        have hrec := ih k1 k2 target h (by omega)
        rw [hrec, hh1]
        omega
    · rename_i hgt
      injection h with h
      subst h
      omega

/-- C5 (amended): create_blocks_until(h) repeatedly creates blocks while
current_height() <= h; when it returns, current_height() equals h + 1 if the
height was at most h at the call, and is left unchanged (hence can exceed
h + 1) otherwise: in all cases the final height is max(initial height, h+1). -/
theorem c5_create_blocks_until (k : TestKit) (h : Nat) (k2 : TestKit)
    (hr : TestKit.create_blocks_until k h = some k2) :
    k2.current_height = max k.current_height (h + 1) := by
  unfold TestKit.create_blocks_until at hr
  exact cbua_height (h + 1 - k.current_height) k k2 h hr (by omega)

/-- C5, part that fails: on a testkit already at height 3, create_blocks_until(0)
returns immediately with the height still 3, not 0 + 1. -/
theorem c5_counterexample :
    ¬ (∀ (k : TestKit) (h : Nat) (k2 : TestKit),
        TestKit.create_blocks_until k h = some k2 → k2.current_height = h + 1) := by
  intro hall
  have hx := hall kitV2 0 kitV2 (by decide)
  exact absurd hx (by decide)

/-- C5 witness: from height 1, create_blocks_until(2) ends at height 3. -/
theorem c5_witness : kitV2.current_height = max kitV.current_height (2 + 1) :=
  c5_create_blocks_until kitV 2 kitV2 (by decide)

theorem create_block_uncommitted (k k2 : TestKit) (p : TestNetworkConfiguration)
    (hc : k.cfg_proposal = some (ConfigurationProposalState.Uncommitted p))
    (h : TestKit.create_block k = some k2) :
    k2.network = k.network ∧
    k2.cfg_proposal = some (ConfigurationProposalState.Committed p) ∧
    k2.current_height = k.current_height + 1 ∧
    p.stored_configuration ∈ k2.blockchain.storedConfigs := by
  have hd := dcb_spec (k.poll_events) ((k.poll_events).mempool.map Tx.txHash) k2 h
  have hcp : (k.poll_events).cfg_proposal = some (ConfigurationProposalState.Uncommitted p) := hc
  have huc := uc_uncommitted (k.poll_events) p hcp
  refine ⟨?_, ?_, ?_, ?_⟩
  · rw [hd.1, huc]
    rfl
  · rw [hd.2.1, huc]
  · have hh := hd.2.2.1
    rw [poll_height] at hh
    exact hh
  · have hsc := hd.2.2.2.1
    rw [huc] at hsc
    rw [hsc]
    simp [Blockchain.commit_configuration]

theorem create_block_hold (k k2 : TestKit) (p : TestNetworkConfiguration)
    (hc : k.cfg_proposal = some (ConfigurationProposalState.Committed p))
    (hne : p.actual_from ≠ k.current_height)
    (h : TestKit.create_block k = some k2) :
    k2.network = k.network ∧
    k2.cfg_proposal = some (ConfigurationProposalState.Committed p) ∧
    k2.current_height = k.current_height + 1 := by
  have hd := dcb_spec (k.poll_events) ((k.poll_events).mempool.map Tx.txHash) k2 h
  have hcp : (k.poll_events).cfg_proposal = some (ConfigurationProposalState.Committed p) := hc
  have hne2 : p.actual_from ≠ (k.poll_events).current_height := hne
  have huc := uc_committed_hold (k.poll_events) p hcp hne2
  refine ⟨?_, ?_, ?_⟩
  · rw [hd.1, huc]
    rfl
  · rw [hd.2.1, huc]
    exact hcp
  · have hh := hd.2.2.1
    rw [poll_height] at hh
    exact hh

theorem create_block_fire (k k2 : TestKit) (p : TestNetworkConfiguration)
    (hc : k.cfg_proposal = some (ConfigurationProposalState.Committed p))
    (heq : p.actual_from = k.current_height)
    (h : TestKit.create_block k = some k2) :
    k2.network = TestNetwork.update k.network p.us p.validators ∧
    k2.cfg_proposal = none ∧
    k2.current_height = k.current_height + 1 := by
  have hd := dcb_spec (k.poll_events) ((k.poll_events).mempool.map Tx.txHash) k2 h
  have hcp : (k.poll_events).cfg_proposal = some (ConfigurationProposalState.Committed p) := hc
  have heq2 : p.actual_from = (k.poll_events).current_height := heq
  have huc := uc_committed_fire (k.poll_events) p hcp heq2
  refine ⟨?_, ?_, ?_⟩
  · rw [hd.1, huc]
    rfl
  · rw [hd.2.1, huc]
  · have hh := hd.2.2.1
    rw [poll_height] at hh
    exact hh

/-- C2, part that fails: with a proposal committed at height H that activates
at height H + 2, the live validator set is still the old one after the second
block (it changes only during the third block production), so the claimed
after-two-blocks activation is false on the concrete run. -/
theorem c2_counterexample :
    ¬ (∀ (k : TestKit) (p : TestNetworkConfiguration) (k1 k2 k3 : TestKit),
        TestKit.commit_configuration_change k p = some k1 →
        p.actual_from = k.current_height + 2 →
        TestKit.create_block k1 = some k2 →
        TestKit.create_block k2 = some k3 →
        (p.stored_configuration ∈ k2.blockchain.storedConfigs ∧ k2.network = k1.network) ∧
        k3.network.validators = (reindexFold p.us 0 p.validators).2) := by
  intro hall
  have hx := hall kitV pC kitP kitP2 kitP3 (by decide) (by decide) (by decide) (by decide)
  exact absurd hx.2 (by decide)

/-- C2 (amended): committing a proposal with actual_from = H + 2 at height H,
after one block the stored configuration is committed to state and the live
validator set is unchanged; after the second block it is still unchanged (the
proposal is merely held); the live validator set matches the proposal after
the third block, the one produced at height actual_from. -/
theorem c2_activation_timing (k : TestKit) (p : TestNetworkConfiguration)
    (k1 k2 k3 k4 : TestKit)
    (hcc : TestKit.commit_configuration_change k p = some k1)
    (hAF : p.actual_from = k.current_height + 2)
    (h1 : TestKit.create_block k1 = some k2)
    (h2 : TestKit.create_block k2 = some k3)
    (h3 : TestKit.create_block k3 = some k4) :
    (p.stored_configuration ∈ k2.blockchain.storedConfigs ∧ k2.network = k1.network) ∧
    k3.network = k1.network ∧
    k4.network.validators = (reindexFold p.us 0 p.validators).2 ∧
    k4.network.us = (reindexFold p.us 0 p.validators).1 := by
  simp only [TestKit.commit_configuration_change] at hcc
  split at hcc
  case isFalse => exact absurd hcc (by simp)
  case isTrue hcond =>
    injection hcc with hcc
    have hk1c : k1.cfg_proposal = some (ConfigurationProposalState.Uncommitted p) := by
      rw [← hcc]
    have hk1h : k1.current_height = k.current_height := by rw [← hcc]; rfl
    obtain ⟨hn2, hc2, hh2, hs2⟩ := create_block_uncommitted k1 k2 p hk1c h1
    have hne2 : p.actual_from ≠ k2.current_height := by omega
    obtain ⟨hn3, hc3, hh3⟩ := create_block_hold k2 k3 p hc2 hne2 h2
    have heq3 : p.actual_from = k3.current_height := by omega
    obtain ⟨hn4, hc4, hh4⟩ := create_block_fire k3 k4 p hc3 heq3 h3
    refine ⟨⟨hs2, hn2⟩, ?_, ?_, ?_⟩
    · rw [hn3, hn2]
    · rw [hn4]
      rfl
    · rw [hn4]
      rfl

/-- C2 witness: the amended timing on the concrete run from height 1 with
actual_from = 3. -/
theorem c2_witness :
    (pC.stored_configuration ∈ kitP2.blockchain.storedConfigs ∧ kitP2.network = kitP.network) ∧
    kitP3.network = kitP.network ∧
    kitP4.network.validators = (reindexFold pC.us 0 pC.validators).2 ∧
    kitP4.network.us = (reindexFold pC.us 0 pC.validators).1 :=
  c2_activation_timing kitV pC kitP kitP2 kitP3 kitP4 (by decide) (by decide)
    (by decide) (by decide) (by decide)

theorem cbua_config : ∀ fuel (k k2 : TestKit) (p : TestNetworkConfiguration),
    fuel = p.actual_from + 1 - k.current_height →
    ((k.cfg_proposal = some (ConfigurationProposalState.Uncommitted p) ∧
        k.current_height < p.actual_from) ∨
     (k.cfg_proposal = some (ConfigurationProposalState.Committed p) ∧
        k.current_height ≤ p.actual_from)) →
    createBlocksUntilAux fuel k p.actual_from = some k2 →
    k2.network = { us := (reindexFold p.us 0 p.validators).1,
                   validators := (reindexFold p.us 0 p.validators).2 } := by
  intro fuel
  induction fuel with
  | zero =>
    intro k k2 p hf hinv h
    rcases hinv with ⟨_, hlt⟩ | ⟨_, hle⟩ <;> omega
  | succ f ih =>
    intro k k2 p hf hinv h
    simp only [createBlocksUntilAux] at h
    split at h
    case isFalse hgt =>
      rcases hinv with ⟨_, hlt⟩ | ⟨_, hle⟩ <;> omega
    case isTrue hcond =>
      cases hcb : k.create_block with
      | none => rw [hcb] at h; exact absurd h (by simp)
      | some k1 =>
        rw [hcb] at h
        rcases hinv with ⟨hcfg, hlt⟩ | ⟨hcfg, hle⟩
        · obtain ⟨hn1, hc1, hh1, _⟩ := create_block_uncommitted k k1 p hcfg hcb
          exact ih k1 k2 p (by omega) (Or.inr ⟨hc1, by omega⟩) h
        · by_cases hEq : p.actual_from = k.current_height
          · obtain ⟨hn1, hc1, hh1⟩ := create_block_fire k k1 p hcfg hEq hcb
            have hf0 : f = 0 := by omega
            subst hf0
            simp only [createBlocksUntilAux] at h
            split at h
            · exact absurd h (by simp)
            · injection h with h
              subst h
              rw [hn1]
              rfl
          · obtain ⟨hn1, hc1, hh1⟩ := create_block_hold k k1 p hcfg hEq hcb
            exact ih k1 k2 p (by omega) (Or.inr ⟨hc1, by omega⟩) h

/-- C3: for every proposal p accepted by commit_configuration_change, after
create_blocks_until(p.actual_from) completes, the live validator list equals
p.validators with validator indices reassigned by position, and the node under
test equals p.us with its validator index recomputed by the update (it is set
to a matching position exactly when some incoming validator has the consensus
key of p.us). -/
theorem c3_blocks_until_activation (k0 : TestKit) (p : TestNetworkConfiguration)
    (k k2 : TestKit)
    (hcc : TestKit.commit_configuration_change k0 p = some k)
    (hr : TestKit.create_blocks_until k p.actual_from = some k2) :
    k2.network.validators = (reindexFold p.us 0 p.validators).2 ∧
    k2.network.us = (reindexFold p.us 0 p.validators).1 := by
  simp only [TestKit.commit_configuration_change] at hcc
  split at hcc
  case isFalse => exact absurd hcc (by simp)
  case isTrue hcond =>
    injection hcc with hcc
    have hkc : k.cfg_proposal = some (ConfigurationProposalState.Uncommitted p) := by
      rw [← hcc]
    have hkh : k.current_height = k0.current_height := by rw [← hcc]; rfl
    have hlt : k.current_height < p.actual_from := by
      rw [hkh]
      exact hcond.1
    unfold TestKit.create_blocks_until at hr
    have hnet := cbua_config (p.actual_from + 1 - k.current_height) k k2 p rfl
      (Or.inl ⟨hkc, hlt⟩) hr
    rw [hnet]
    exact ⟨rfl, rfl⟩

/-- C3 witness: the concrete proposal pC, committed at height 1 and activated
by create_blocks_until(3). -/
theorem c3_witness :
    kitPU.network.validators = (reindexFold pC.us 0 pC.validators).2 ∧
    kitPU.network.us = (reindexFold pC.us 0 pC.validators).1 :=
  c3_blocks_until_activation kitV pC kitP kitPU (by decide) (by decide)

theorem tx_eq (a b : Tx) (h : a.txHash = b.txHash) : a = b := by
  cases a
  cases b
  simpa using h

theorem mem_insertTx (mp : List Tx) (tx a : Tx) :
    a ∈ insertTx mp tx ↔ a = tx ∨ a ∈ mp := by
  induction mp with
  | nil => simp [insertTx]
  | cons t rest ih =>
    simp only [insertTx]
    split
    · simp only [List.mem_cons]
    · split
      · rename_i hlt heq
        have ht : t = tx := tx_eq t tx heq.symm
        subst ht
        simp only [List.mem_cons]
        tauto
      · simp only [List.mem_cons, ih]
        tauto

theorem mem_foldl_insertTx (l : List Tx) : ∀ (mp : List Tx) (a : Tx),
    a ∈ l.foldl insertTx mp ↔ a ∈ mp ∨ a ∈ l := by
  induction l with
  | nil => intro mp a; simp
  | cons t rest ih =>
    intro mp a
    simp only [List.foldl_cons]
    rw [ih, mem_insertTx]
    simp only [List.mem_cons]
    tauto

theorem mem_pump_foldl (chan : List Tx) : ∀ (committed : List Nat) (mp : List Tx) (a : Tx),
    a ∈ chan.foldl (pumpStep committed) mp ↔
      a ∈ mp ∨ (a ∈ chan ∧ ¬ a.txHash ∈ committed) := by
  induction chan with
  | nil => intro committed mp a; simp
  | cons t rest ih =>
    intro committed mp a
    simp only [List.foldl_cons, pumpStep]
    split
    · rename_i hin
      rw [ih]
      simp only [List.mem_cons]
      have hat : a = t → a.txHash ∈ committed := fun he => he ▸ hin
      tauto
    · rename_i hnin
      rw [ih, mem_insertTx]
      simp only [List.mem_cons]
      have hat : a = t → ¬ a.txHash ∈ committed := fun he => he ▸ hnin
      tauto

theorem cbwth_mempool (k : TestKit) (hs : List Nat) (k2 : TestKit)
    (h : TestKit.create_block_with_tx_hashes k hs = some k2) :
    k2.mempool = (k.poll_events).mempool.filter (fun tx => ¬ tx.txHash ∈ hs) := by
  simp only [TestKit.create_block_with_tx_hashes] at h
  split at h
  · have hd := dcb_spec (k.poll_events) hs k2 h
    have hm := hd.2.2.2.2.2.1
    rw [show (k.poll_events).channel = [] from rfl] at hm
    simpa using hm
  · exact absurd h (by simp)

/-- C6: after a create_block family call returns, no transaction hash included
in the produced block remains in the mempool, while transactions that were
pending but not included remain. -/
theorem c6_mempool_pruning :
    ∀ (k : TestKit) (hs : List Nat) (txs : List Tx) (k2 : TestKit),
      (TestKit.create_block_with_tx_hashes k hs = some k2 →
        (∀ tx, tx ∈ k2.mempool → ¬ tx.txHash ∈ hs) ∧
        (∀ tx, tx ∈ (TestKit.poll_events k).mempool → ¬ tx.txHash ∈ hs →
          tx ∈ k2.mempool)) ∧
      (TestKit.create_block k = some k2 →
        ∀ tx, tx ∈ (TestKit.poll_events k).mempool → ¬ tx ∈ k2.mempool) ∧
      (TestKit.create_block_with_transactions k txs = some k2 →
        (∀ tx, tx ∈ txs → ¬ tx ∈ k2.mempool) ∧
        (∀ tx, tx ∈ k.mempool → ¬ tx.txHash ∈ txs.map Tx.txHash → tx ∈ k2.mempool)) := by
  intro k hs txs k2
  refine ⟨?_, ?_, ?_⟩
  · intro h
    have hm := cbwth_mempool k hs k2 h
    constructor
    · intro tx htx
      rw [hm] at htx
      have h2 := List.mem_filter.mp htx
      simpa using h2.2
    · intro tx htx hnin
      rw [hm]
      exact List.mem_filter.mpr ⟨htx, by simpa using hnin⟩
  · intro h tx htx hin
    have hd := dcb_spec (k.poll_events) ((k.poll_events).mempool.map Tx.txHash) k2 h
    have hm := hd.2.2.2.2.2.1
    rw [show (k.poll_events).channel = [] from rfl] at hm
    simp only [List.foldl_nil] at hm
    rw [hm] at hin
    have h2 := List.mem_filter.mp hin
    have h3 : tx.txHash ∈ (k.poll_events).mempool.map Tx.txHash :=
      List.mem_map.mpr ⟨tx, htx, rfl⟩
    exact absurd h3 (by simpa using h2.2)
  · intro h
    simp only [TestKit.create_block_with_transactions] at h
    split at h
    · have hm := cbwth_mempool _ _ k2 h
      constructor
      · intro tx htx hmem
        rw [hm] at hmem
        have h2 := List.mem_filter.mp hmem
        have h3 : tx.txHash ∈ txs.map Tx.txHash := List.mem_map.mpr ⟨tx, htx, rfl⟩
        exact absurd h3 (by simpa using h2.2)
      · intro tx htx hnin
        rw [hm]
        refine List.mem_filter.mpr ⟨?_, by simpa using hnin⟩
        exact (mem_pump_foldl k.channel k.blockchain.committedTxs
            (txs.foldl insertTx k.mempool) tx).mpr
          (Or.inl ((mem_foldl_insertTx txs k.mempool tx).mpr (Or.inl htx)))
    · exact absurd h (by simp)

/-- C6 witness: with transactions 1 and 2 pending on the channel, after
create_block_with_tx_hashes([1]) transaction 1 is gone from the mempool and
transaction 2 remains. -/
theorem c6_witness :
    (Tx.mk 2) ∈ kitT1.mempool ∧ ∀ tx, tx ∈ kitT1.mempool → ¬ tx.txHash ∈ [1] := by
  have hc := (c6_mempool_pruning kitT [1] [] kitT1).1 (by decide)
  exact ⟨hc.2 (Tx.mk 2) (by decide) (by decide), hc.1⟩


theorem insertTx_hashes (mp : List Tx) (tx : Tx) (h : Nat) :
    h ∈ (insertTx mp tx).map Tx.txHash ↔ h = tx.txHash ∨ h ∈ mp.map Tx.txHash := by
  simp only [List.mem_map]
  constructor
  · rintro ⟨a, ha, rfl⟩
    rcases (mem_insertTx mp tx a).mp ha with rfl | hmp
    · exact Or.inl rfl
    · exact Or.inr ⟨a, hmp, rfl⟩
  · rintro (rfl | ⟨a, ha, rfl⟩)
    · exact ⟨tx, (mem_insertTx mp tx tx).mpr (Or.inl rfl), rfl⟩
    · exact ⟨a, (mem_insertTx mp tx a).mpr (Or.inr ha), rfl⟩

theorem insertTx_sorted (mp : List Tx) (tx : Tx) (h : mpSorted mp) :
    mpSorted (insertTx mp tx) := by
  induction mp with
  | nil => simp [insertTx, mpSorted]
  | cons t rest ih =>
    rcases List.pairwise_cons.mp h with ⟨ht, hrest⟩
    simp only [insertTx]
    split
    · rename_i hlt
      refine List.pairwise_cons.mpr ⟨?_, h⟩
      intro b hb
      rcases List.mem_cons.mp hb with rfl | hbr
      · exact hlt
      · exact Nat.lt_trans hlt (ht b hbr)
    · split
      · rename_i hlt heq
        refine List.pairwise_cons.mpr ⟨?_, hrest⟩
        intro b hb
        rw [heq]
        exact ht b hb
      · rename_i hlt heq
        refine List.pairwise_cons.mpr ⟨?_, ih hrest⟩
        intro b hb
        rcases (mem_insertTx rest tx b).mp hb with rfl | hbr
        · omega
        · exact ht b hbr

theorem insertTx_length_sorted (mp : List Tx) (tx : Tx) (h : mpSorted mp) :
    (insertTx mp tx).length =
      if tx.txHash ∈ mp.map Tx.txHash then mp.length else mp.length + 1 := by
  induction mp with
  | nil => simp [insertTx]
  | cons t rest ih =>
    rcases List.pairwise_cons.mp h with ⟨ht, hrest⟩
    simp only [insertTx]
    split
    · rename_i hlt
      rw [if_neg]
      · simp
      · intro hin
        simp only [List.map_cons, List.mem_cons, List.mem_map] at hin
        rcases hin with heq | ⟨a, ha, heq⟩
        · omega
        · have := ht a ha
          omega
    · split
      · rename_i hlt heq
        rw [if_pos]
        · simp
        · simp [heq]
      · rename_i hlt heq
        simp only [List.length_cons, ih hrest]
        by_cases hin : tx.txHash ∈ rest.map Tx.txHash
        · rw [if_pos hin, if_pos]
          simp only [List.map_cons, List.mem_cons]
          exact Or.inr hin
        · rw [if_neg hin, if_neg]
          intro hcon
          simp only [List.map_cons, List.mem_cons] at hcon
          rcases hcon with hcon | hcon
          · omega
          · exact hin hcon

theorem foldl_insertTx_le (l : List Tx) : ∀ mp, mpSorted mp →
    (l.foldl insertTx mp).length ≤ mp.length + l.length := by
  induction l with
  | nil => intro mp _; simp
  | cons t rest ih =>
    intro mp hmp
    simp only [List.foldl_cons, List.length_cons]
    have h1 := ih (insertTx mp t) (insertTx_sorted mp t hmp)
    have h2 := insertTx_length_sorted mp t hmp
    split at h2 <;> omega

theorem foldl_insertTx_nodup (l : List Tx) : ∀ mp, mpSorted mp →
    (l.map Tx.txHash).Nodup → (∀ tx ∈ l, ¬ tx.txHash ∈ mp.map Tx.txHash) →
    (l.foldl insertTx mp).length = mp.length + l.length := by
  induction l with
  | nil => intro mp _ _ _; simp
  | cons t rest ih =>
    intro mp hmp hnd hdis
    simp only [List.foldl_cons, List.length_cons]
    have hnotin : ¬ t.txHash ∈ mp.map Tx.txHash := hdis t (by simp)
    have hlen := insertTx_length_sorted mp t hmp
    rw [if_neg hnotin] at hlen
    have hnd2 : (rest.map Tx.txHash).Nodup := by
      simp only [List.map_cons, List.nodup_cons] at hnd
      exact hnd.2
    have hdis2 : ∀ tx ∈ rest, ¬ tx.txHash ∈ (insertTx mp t).map Tx.txHash := by
      intro tx htx hin
      rcases (insertTx_hashes mp t tx.txHash).mp hin with heq | hmem
      · simp only [List.map_cons, List.nodup_cons] at hnd
        exact hnd.1 (List.mem_map.mpr ⟨tx, htx, heq⟩)
      · exact hdis tx (by simp [htx]) hmem
    have hrec := ih (insertTx mp t) (insertTx_sorted mp t hmp) hnd2 hdis2
    rw [hrec, hlen]
    omega

theorem foldl_insertTx_lt (l : List Tx) : ∀ mp, mpSorted mp →
    (¬ (l.map Tx.txHash).Nodup ∨ ∃ tx ∈ l, tx.txHash ∈ mp.map Tx.txHash) →
    (l.foldl insertTx mp).length < mp.length + l.length := by
  induction l with
  | nil =>
    intro mp _ hbad
    rcases hbad with hnd | ⟨tx, htx, _⟩
    · simp at hnd
    · simp at htx
  | cons t rest ih =>
    intro mp hmp hbad
    simp only [List.foldl_cons, List.length_cons]
    have hlen := insertTx_length_sorted mp t hmp
    by_cases hin : t.txHash ∈ mp.map Tx.txHash
    · rw [if_pos hin] at hlen
      have hle := foldl_insertTx_le rest (insertTx mp t) (insertTx_sorted mp t hmp)
      rw [hlen] at hle
      omega
    · rw [if_neg hin] at hlen
      have hbad2 : ¬ (rest.map Tx.txHash).Nodup ∨
          ∃ tx ∈ rest, tx.txHash ∈ (insertTx mp t).map Tx.txHash := by
        rcases hbad with hnd | ⟨tx, htx, hmem⟩
        · simp only [List.map_cons, List.nodup_cons] at hnd
          by_cases hmem : t.txHash ∈ rest.map Tx.txHash
          · obtain ⟨a, ha, hha⟩ := List.mem_map.mp hmem
            exact Or.inr ⟨a, ha, (insertTx_hashes mp t a.txHash).mpr (Or.inl hha)⟩
          · left
            intro hnd2
            exact hnd ⟨hmem, hnd2⟩
        · rcases List.mem_cons.mp htx with rfl | htxr
          · exact absurd hmem hin
          · exact Or.inr ⟨tx, htxr, (insertTx_hashes mp t tx.txHash).mpr (Or.inr hmem)⟩
      have hrec := ih (insertTx mp t) (insertTx_sorted mp t hmp) hbad2
      rw [hlen] at hrec
      omega

theorem buildTxMap_length (l : List Tx) :
    (buildTxMap l).length = l.length ↔ (l.map Tx.txHash).Nodup := by
  constructor
  · intro h
    by_contra hnd
    have hlt := foldl_insertTx_lt l [] (by simp [mpSorted]) (Or.inl hnd)
    simp only [List.length_nil, Nat.zero_add] at hlt
    unfold buildTxMap at h
    omega
  · intro hnd
    have heq := foldl_insertTx_nodup l [] (by simp [mpSorted]) hnd (by simp)
    unfold buildTxMap
    simpa using heq

/-- C8 (amended): for a testkit whose tested node is a validator, probe_all
fails with the duplicate-transactions panic exactly when the input restricted
to the not-yet-committed transactions contains a duplicate; transactions that
are already committed (including any duplicates of them) are silently filtered
out before the duplicate check and cause no error. -/
theorem c8_duplicate_probe (k : TestKit) (txs : List Tx)
    (hv : (k.network.us.validator_id).isSome = true) :
    TestKit.probe_all k txs = Except.error "Duplicate transactions in probe" ↔
      ¬ ((txs.filter (fun tx => ¬ tx.txHash ∈ k.blockchain.committedTxs)).map
          Tx.txHash).Nodup := by
  obtain ⟨vid, hvid⟩ := Option.isSome_iff_exists.mp hv
  simp only [TestKit.probe_all, hvid]
  split
  · rename_i hlen
    constructor
    · intro hcontra
      exact absurd hcontra (by simp)
    · intro hnd
      exfalso
      apply hnd
      apply (buildTxMap_length _).mp
      rw [List.length_map] at hlen
      omega
  · rename_i hlen
    constructor
    · intro _
      intro hnd
      apply hlen
      have heq := (buildTxMap_length _).mpr hnd
      rw [List.length_map]
      omega
    · intro _
      rfl

/-- C8, part that fails: the claim quantifies over every input list with a
duplicate, but when the duplicated transaction is already committed both
copies are silently filtered out and probe_all succeeds instead of failing. -/
theorem c8_counterexample :
    ¬ (∀ (k : TestKit) (txs : List Tx), (k.network.us.validator_id).isSome = true →
        ¬ (txs.map Tx.txHash).Nodup →
        TestKit.probe_all k txs = Except.error "Duplicate transactions in probe") := by
  intro hall
  have hx := hall kitC [Tx.mk 5, Tx.mk 5] (by decide) (by decide)
  exact absurd hx (by decide)

/-- C8 witness: probing [T, T] with a not-yet-committed transaction T on the
validator testkit fails with the duplicate-transactions panic. -/
theorem c8_witness :
    TestKit.probe_all kitV [Tx.mk 5, Tx.mk 5] =
      Except.error "Duplicate transactions in probe" :=
  (c8_duplicate_probe kitV [Tx.mk 5, Tx.mk 5] (by decide)).mpr (by decide)
